import Mathlib

/-!
Verification of the `generic-upper-bound` crate: the build-script table
generator (`build.rs`, `write_for_each_size_macro`) and the const
bound-selection and dispatch scans of `src/implementation.rs`
(`Impl::ACTUAL`, `Impl::EVAL`, `Impl::DESIRED`), behind the public
functions `desired_generic`, `get_upper_bound`, `eval_with_upper_bound`
of `src/lib.rs`.
-/

/-- Value of a binary numeral given as its list of bits, most significant
bit first — the value the Rust compiler assigns to the `0b...` literals that
`write_for_each_size_macro` emits digit by digit. -/
def binVal (ds : List Nat) : Nat := ds.foldl (fun a d => 2 * a + d) 0

/-- Digits of the literal emitted for bit position `i` and `part = p`:
first `0b1`, then the digit `p`, then `i - 1` zero bits (`for _ in 1..i`). -/
def sizeDigits (p i : Nat) : List Nat := 1 :: p :: List.replicate (i - 1) 0

/-- Regular table entries emitted by `write_for_each_size_macro`: for each
`i in 1..ptr_width`, the numeral for `part = 0` then the one for `part = 1`. -/
def regularSizes (W : Nat) : List Nat :=
  (List.range' 1 (W - 1)).flatMap fun i => [binVal (sizeDigits 0 i), binVal (sizeDigits 1 i)]

/-- Token sequence of the generated `for_each_size!` macro for word width
`W` (`write_for_each_size_macro` in `build.rs`): `0`, `1`, the regular
entries, then the numeral `usize_max` made of `W` one bits. -/
def forEachSize (W : Nat) : List Nat :=
  0 :: 1 :: (regularSizes W ++ [binVal (List.replicate W 1)])

/-- Model of `Impl::ACTUAL`: scan the table in emitted order and break on the
first entry with `n >= desired`; falling through to the diverging
`unreachable()` is modelled as `none`. -/
def ACTUAL (W desired : Nat) : Option Nat :=
  (forEachSize W).find? fun n => desired ≤ n

/-- Model of `Impl::EVAL`: read `Self::ACTUAL`, rescan the table for the
entry equal to it, and realize `const_value::<A::Eval<n>>()` for exactly that
entry `n`; the caller's branch family `A::Eval` is modelled by `ev`. -/
def EVAL {α : Type} (W desired : Nat) (ev : Nat → α) : Option α :=
  match ACTUAL W desired with
  | some actual => ((forEachSize W).find? fun n => n == actual).map ev
  | none => none

/-- Model of `Impl::DESIRED_REF`, the promoted `&A::DESIRED_GENERIC`. -/
def DESIRED_REF (desired : Nat) : Nat := desired

/-- Model of `Impl::DESIRED`, which dereferences `Self::DESIRED_REF`. -/
def DESIRED (desired : Nat) : Nat := DESIRED_REF desired

/-- Model of `desired_generic::<A>()`, returning `Impl::<A>::DESIRED`. -/
def desired_generic (desired : Nat) : Nat := DESIRED desired

/-- Model of `get_upper_bound::<A>()`, returning `Impl::<A>::ACTUAL`. -/
def get_upper_bound (W desired : Nat) : Option Nat := ACTUAL W desired

/-- Model of `eval_with_upper_bound::<A>()`, returning `Impl::<A>::EVAL`. -/
def eval_with_upper_bound {α : Type} (W desired : Nat) (ev : Nat → α) : Option α :=
  EVAL W desired ev

lemma binVal_zeros (a k : Nat) :
    List.foldl (fun x d => 2 * x + d) a (List.replicate k 0) = a * 2 ^ k := by
  induction k generalizing a with
  | zero => simp
  | succ k ih =>
    rw [List.replicate_succ, List.foldl_cons, ih]
    ring

lemma binVal_ones (a k : Nat) :
    List.foldl (fun x d => 2 * x + d) a (List.replicate k 1) = (a + 1) * 2 ^ k - 1 := by
  induction k generalizing a with
  | zero => simp
  | succ k ih =>
    rw [List.replicate_succ, List.foldl_cons, ih]
    have h : (2 * a + 1 + 1) * 2 ^ k = (a + 1) * 2 ^ (k + 1) := by ring
    rw [h]

lemma binVal_sizeDigits (p i : Nat) :
    binVal (sizeDigits p i) = (2 + p) * 2 ^ (i - 1) := by
  unfold binVal sizeDigits
  rw [List.foldl_cons, List.foldl_cons, binVal_zeros]

lemma binVal_ones_max (W : Nat) : binVal (List.replicate W 1) = 2 ^ W - 1 := by
  unfold binVal
  rw [binVal_ones]
  simp

lemma regularSizes_eq (W : Nat) :
    regularSizes W =
      (List.range' 1 (W - 1)).flatMap fun i => [2 * 2 ^ (i - 1), 3 * 2 ^ (i - 1)] := by
  unfold regularSizes
  simp [binVal_sizeDigits]

lemma forEachSize_eq (W : Nat) :
    forEachSize W =
      0 :: 1 :: (((List.range' 1 (W - 1)).flatMap fun i => [2 * 2 ^ (i - 1), 3 * 2 ^ (i - 1)])
        ++ [2 ^ W - 1]) := by
  unfold forEachSize
  rw [regularSizes_eq, binVal_ones_max]

lemma coreChain (n : Nat) :
    List.Chain' (fun a b => a < b ∧ b ≤ 2 * a + 1)
      (0 :: 1 :: ((List.range' 1 n).flatMap fun i => [2 * 2 ^ (i - 1), 3 * 2 ^ (i - 1)])) ∧
    (0 :: 1 :: ((List.range' 1 n).flatMap fun i => [2 * 2 ^ (i - 1), 3 * 2 ^ (i - 1)])).getLast?
      = some (if n = 0 then 1 else 3 * 2 ^ (n - 1)) := by
  induction n with
  | zero =>
    refine ⟨?_, rfl⟩
    rw [show List.range' 1 0 = ([] : List Nat) from rfl]
    simp only [List.flatMap_nil]
    exact List.chain'_cons.mpr ⟨⟨by omega, by omega⟩, List.chain'_singleton _⟩
  | succ n ih =>
    obtain ⟨hc, hl⟩ := ih
    rw [List.range'_1_concat, List.flatMap_append]
    simp only [List.flatMap_cons, List.flatMap_nil, List.append_nil]
    have hn1 : 1 + n - 1 = n := by omega
    rw [hn1]
    rw [← List.cons_append, ← List.cons_append, List.chain'_append]
    have hx : 0 < 2 ^ n := Nat.pos_pow_of_pos n (by omega)
    refine ⟨⟨hc, ?_, ?_⟩, ?_⟩
    · rw [List.chain'_cons]
      exact ⟨⟨by omega, by omega⟩, List.chain'_singleton _⟩
    · rw [hl]
      intro x hx' y hy'
      simp only [Option.mem_def, Option.some.injEq] at hx'
      simp only [List.head?_cons, Option.mem_def, Option.some.injEq] at hy'
      subst hx' hy'
      rcases Nat.eq_zero_or_pos n with h0 | h0
      · subst h0
        exact ⟨by decide, by decide⟩
      · have hsplit : 2 ^ n = 2 * 2 ^ (n - 1) := by
          rw [← pow_succ']
          congr 1
          omega
        have hy : 0 < 2 ^ (n - 1) := Nat.pos_pow_of_pos _ (by omega)
        rw [if_neg (by omega)]
        constructor
        · omega
        · omega
    · rw [List.getLast?_append]
      simp only [List.getLast?_cons_cons, List.getLast?_singleton, Option.or_some]
      rw [if_neg (by omega), Nat.add_sub_cancel]

lemma forEachSize_chain_all (W : Nat) (hW : 1 ≤ W) :
    List.Chain' (fun a b => a ≤ b ∧ b ≤ 2 * a + 1) (forEachSize W) ∧
    (3 ≤ W → List.Chain' (fun a b => a < b) (forEachSize W)) := by
  obtain ⟨hc, hl⟩ := coreChain (W - 1)
  rw [forEachSize_eq]
  constructor
  · rw [← List.cons_append, ← List.cons_append, List.chain'_append]
    refine ⟨hc.imp fun _ _ hab => ⟨Nat.le_of_lt hab.1, hab.2⟩, List.chain'_singleton _, ?_⟩
    rw [hl]
    intro x hx' y hy'
    simp only [Option.mem_def, Option.some.injEq] at hx'
    simp only [List.head?_cons, Option.mem_def, Option.some.injEq] at hy'
    subst hx' hy'
    rcases Nat.lt_or_ge W 2 with h2 | h2
    · have h1 : W = 1 := by omega
      subst h1
      exact ⟨by decide, by decide⟩
    · rw [if_neg (by omega)]
      have e : 2 ^ (W - 2 + 2) = 2 ^ W := by rw [Nat.sub_add_cancel h2]
      have h4 : 2 ^ W = 4 * 2 ^ (W - 2) := by rw [← e, pow_add]; ring
      have hx2 : 0 < 2 ^ (W - 2) := Nat.pos_pow_of_pos _ (by omega)
      have e2 : W - 1 - 1 = W - 2 := by omega
      rw [e2]
      exact ⟨by omega, by omega⟩
  · intro h3
    rw [← List.cons_append, ← List.cons_append, List.chain'_append]
    refine ⟨hc.imp fun _ _ hab => hab.1, List.chain'_singleton _, ?_⟩
    rw [hl]
    intro x hx' y hy'
    simp only [Option.mem_def, Option.some.injEq] at hx'
    simp only [List.head?_cons, Option.mem_def, Option.some.injEq] at hy'
    subst hx' hy'
    rw [if_neg (by omega)]
    have e : 2 ^ (W - 2 + 2) = 2 ^ W := by rw [Nat.sub_add_cancel (by omega)]
    have h4 : 2 ^ W = 4 * 2 ^ (W - 2) := by rw [← e, pow_add]; ring
    have hx2 : 2 ≤ 2 ^ (W - 2) := by
      calc 2 = 2 ^ 1 := by norm_num
      _ ≤ 2 ^ (W - 2) := Nat.pow_le_pow_right (by omega) (by omega)
    have e2 : W - 1 - 1 = W - 2 := by omega
    rw [e2]
    omega

lemma forEachSize_pairwise_le (W : Nat) (hW : 1 ≤ W) :
    List.Pairwise (fun a b => a ≤ b) (forEachSize W) :=
  List.chain'_iff_pairwise.mp (((forEachSize_chain_all W hW).1).imp fun _ _ hab => hab.1)

lemma find?_ge_min {l : List Nat} (hl : List.Pairwise (fun a b => a ≤ b) l) {d u : Nat}
    (h : l.find? (fun n => d ≤ n) = some u) :
    ∀ v ∈ l, d ≤ v → u ≤ v := by
  induction l with
  | nil => simp at h
  | cons a t ih =>
    by_cases hda : d ≤ a
    · rw [List.find?_cons_of_pos _ (by simpa using hda)] at h
      injection h with h
      subst h
      intro v hv hdv
      rcases List.mem_cons.mp hv with rfl | hv'
      · exact Nat.le_refl _
      · exact (List.pairwise_cons.mp hl).1 v hv'
    · rw [List.find?_cons_of_neg _ (by simpa using hda)] at h
      intro v hv hdv
      rcases List.mem_cons.mp hv with rfl | hv'
      · exact absurd hdv hda
      · exact ih (List.pairwise_cons.mp hl).2 h v hv' hdv

lemma find?_eq_self {l : List Nat} {u : Nat} (hu : u ∈ l) :
    l.find? (fun n => n == u) = some u := by
  induction l with
  | nil => simp at hu
  | cons a t ih =>
    by_cases hau : a = u
    · subst hau
      rw [List.find?_cons_of_pos _ (by simp)]
    · rw [List.find?_cons_of_neg _ (by simp [hau])]
      refine ih ?_
      rcases List.mem_cons.mp hu with rfl | hv'
      · exact absurd rfl hau
      · exact hv'

lemma max_mem_forEachSize (W : Nat) : 2 ^ W - 1 ∈ forEachSize W := by
  rw [forEachSize_eq]
  simp

lemma ACTUAL_isSome (W d : Nat) (hd : d < 2 ^ W) : ∃ u, ACTUAL W d = some u := by
  rcases h : ACTUAL W d with _ | u
  · exfalso
    unfold ACTUAL at h
    rw [List.find?_eq_none] at h
    have hm := h _ (max_mem_forEachSize W)
    have h1 : 1 ≤ 2 ^ W := Nat.one_le_two_pow
    simp at hm
    omega
  · exact ⟨u, rfl⟩

lemma ACTUAL_ge {W d u : Nat} (h : ACTUAL W d = some u) : d ≤ u := by
  unfold ACTUAL at h
  have hp := List.find?_some h
  simpa using hp

lemma ACTUAL_mem {W d u : Nat} (h : ACTUAL W d = some u) : u ∈ forEachSize W :=
  List.mem_of_find?_eq_some h

lemma ACTUAL_min {W d u : Nat} (hW : 1 ≤ W) (h : ACTUAL W d = some u) :
    ∀ v ∈ forEachSize W, d ≤ v → u ≤ v :=
  find?_ge_min (forEachSize_pairwise_le W hW) h

lemma find?_lt_double :
    ∀ (l : List Nat) (d : Nat), 0 < d →
      (∀ h ∈ l.head?, h < 2 * d) →
      List.Chain' (fun a b => b ≤ 2 * a + 1) l →
      ∀ u, l.find? (fun n => d ≤ n) = some u → u < 2 * d := by
  intro l
  induction l with
  | nil =>
    intro d _ _ _ u h
    simp at h
  | cons a t ih =>
    intro d hd hh hchain u hu
    have ha : a < 2 * d := hh a (by simp)
    by_cases hda : d ≤ a
    · rw [List.find?_cons_of_pos _ (by simpa using hda)] at hu
      injection hu with hu
      subst hu
      exact ha
    · rw [List.find?_cons_of_neg _ (by simpa using hda)] at hu
      refine ih d hd ?_ hchain.tail u hu
      intro b hb
      cases t with
      | nil => simp at hb
      | cons b' t' =>
        simp only [List.head?_cons, Option.mem_def, Option.some.injEq] at hb
        subst hb
        have hbb := (List.chain'_cons.mp hchain).1
        omega


/-- C1: for every desired value `D` representable at word width `W`, the
constant `Impl::ACTUAL` behind `get_upper_bound` is the smallest table entry
`U` with `U ≥ D`, equivalently the first entry of the ascending scan
satisfying `n ≥ D`. -/
theorem c1_get_upper_bound_least (W D : Nat) (hW : 1 ≤ W) (hD : D < 2 ^ W) :
    ∃ U, get_upper_bound W D = some U ∧ U ∈ forEachSize W ∧ D ≤ U ∧
      ∀ V ∈ forEachSize W, D ≤ V → U ≤ V := by
  obtain ⟨U, hU⟩ := ACTUAL_isSome W D hD
  exact ⟨U, hU, ACTUAL_mem hU, ACTUAL_ge hU, ACTUAL_min hW hU⟩

theorem c1_witness : ∃ U, get_upper_bound 32 5 = some U ∧ U ∈ forEachSize 32 ∧ 5 ≤ U ∧
    ∀ V ∈ forEachSize 32, 5 ≤ V → U ≤ V :=
  c1_get_upper_bound_least 32 5 (by decide) (by decide)

/-- C2: `eval_with_upper_bound` realizes exactly the evaluation branch indexed
by the bound that `get_upper_bound` reports for the same desired value: it
returns `some (ev U)` where `get_upper_bound` returns `some U`. -/
theorem c2_eval_consistent_with_bound {α : Type} (W D : Nat) (ev : Nat → α)
    (hW : 1 ≤ W) (hD : D < 2 ^ W) :
    ∃ U, get_upper_bound W D = some U ∧ eval_with_upper_bound W D ev = some (ev U) := by
  obtain ⟨U, hU⟩ := ACTUAL_isSome W D hD
  refine ⟨U, hU, ?_⟩
  unfold eval_with_upper_bound EVAL
  rw [show ACTUAL W D = some U from hU]
  show ((forEachSize W).find? fun n => n == U).map ev = some (ev U)
  rw [find?_eq_self (ACTUAL_mem hU)]
  rfl

theorem c2_witness : ∃ U, get_upper_bound 32 5 = some U ∧
    eval_with_upper_bound 32 5 (fun n => n + 1) = some ((fun n => n + 1) U) :=
  c2_eval_consistent_with_bound 32 5 (fun n => n + 1) (by decide) (by decide)

/-- C3: for `0 < D` and `D` representable at width `W`, the selected bound
satisfies the tight multiplicative guarantee `D ≤ U < 2·D`. -/
theorem c3_tight_bound (W D U : Nat) (hW : 1 ≤ W) (hD0 : 0 < D) (hD : D < 2 ^ W)
    (hU : get_upper_bound W D = some U) : D ≤ U ∧ U < 2 * D := by
  refine ⟨ACTUAL_ge hU, ?_⟩
  have hchain := ((forEachSize_chain_all W hW).1).imp fun _ _ hab => hab.2
  refine find?_lt_double (forEachSize W) D hD0 ?_ hchain U hU
  intro h hh
  have h0 : h = 0 := by
    rw [forEachSize_eq] at hh
    simp only [List.head?_cons, Option.mem_def, Option.some.injEq] at hh
    omega
  omega

theorem c3_witness : 5 ≤ 6 ∧ 6 < 2 * 5 :=
  c3_tight_bound 32 5 6 (by decide) (by decide) (by decide) (by decide)

/-- C4: for every representable desired value the ascending scan in `ACTUAL`
finds some entry `≥ D` and the equality rescan in `EVAL` finds an entry equal
to `ACTUAL`; neither scan falls through to the diverging `unreachable()`. -/
theorem c4_no_unreachable (W D : Nat) (hW : 1 ≤ W) (hD : D < 2 ^ W) :
    ∃ U, ACTUAL W D = some U ∧ (forEachSize W).find? (fun n => n == U) = some U ∧
      ∀ (α : Type) (ev : Nat → α), EVAL W D ev = some (ev U) := by
  obtain ⟨U, hU⟩ := ACTUAL_isSome W D hD
  have hm := find?_eq_self (ACTUAL_mem hU)
  refine ⟨U, hU, hm, ?_⟩
  intro α ev
  unfold EVAL
  rw [show ACTUAL W D = some U from hU]
  show ((forEachSize W).find? fun n => n == U).map ev = some (ev U)
  rw [hm]
  rfl

theorem c4_witness : ∃ U, ACTUAL 32 7 = some U ∧
    (forEachSize 32).find? (fun n => n == U) = some U ∧
    ∀ (α : Type) (ev : Nat → α), EVAL 32 7 ev = some (ev U) :=
  c4_no_unreachable 32 7 (by decide) (by decide)

/-- C5 counterexample: at word width `1` the generated sequence is
`[0, 1, 1]`, which is not strictly ascending, so the claim as stated over
every `W ≥ 1` fails. -/
theorem c5_counterexample :
    forEachSize 1 = [0, 1, 1] ∧ ¬ List.Chain' (fun a b => a < b) (forEachSize 1) := by
  refine ⟨by decide, ?_⟩
  intro h
  rw [show forEachSize 1 = [0, 1, 1] from by decide] at h
  have h2 := (List.chain'_cons.mp (List.chain'_cons.mp h).2).1
  omega

/-- C5 amended: for every `W ≥ 1` generation is total and the sequence is
`0, 1`, then `p · 2^(i-1)` for `p ∈ {2,3}` and `i` in `1..W`, then the
maximum `2^W - 1`; it is non-decreasing for every `W ≥ 1`, and strictly
ascending for `W ≥ 3` (at `W = 1` and `W = 2` the final maximum duplicates
an earlier entry). -/
theorem c5_table_structure (W : Nat) (hW : 1 ≤ W) :
    forEachSize W =
      0 :: 1 :: (((List.range' 1 (W - 1)).flatMap fun i => [2 * 2 ^ (i - 1), 3 * 2 ^ (i - 1)])
        ++ [2 ^ W - 1]) ∧
    List.Chain' (fun a b => a ≤ b) (forEachSize W) ∧
    (3 ≤ W → List.Chain' (fun a b => a < b) (forEachSize W)) := by
  obtain ⟨h1, h2⟩ := forEachSize_chain_all W hW
  exact ⟨forEachSize_eq W, h1.imp fun _ _ hab => hab.1, h2⟩

theorem c5_witness :
    forEachSize 3 =
      0 :: 1 :: (((List.range' 1 (3 - 1)).flatMap fun i => [2 * 2 ^ (i - 1), 3 * 2 ^ (i - 1)])
        ++ [2 ^ 3 - 1]) ∧
    List.Chain' (fun a b => a ≤ b) (forEachSize 3) ∧
    (3 ≤ 3 → List.Chain' (fun a b => a < b) (forEachSize 3)) :=
  c5_table_structure 3 (by decide)

/-- C6: bound selection is monotonic in the desired value: over the same
word-width table, `D1 ≤ D2` implies `U1 ≤ U2`. -/
theorem c6_monotone (W D1 D2 U1 U2 : Nat) (hW : 1 ≤ W) (h12 : D1 ≤ D2)
    (h1 : get_upper_bound W D1 = some U1) (h2 : get_upper_bound W D2 = some U2) :
    U1 ≤ U2 := by
  have hm2 : U2 ∈ forEachSize W := ACTUAL_mem h2
  have hge2 : D2 ≤ U2 := ACTUAL_ge h2
  exact ACTUAL_min hW h1 U2 hm2 (Nat.le_trans h12 hge2)

theorem c6_witness : 3 ≤ 6 :=
  c6_monotone 32 3 5 3 6 (by decide) (by decide) (by decide) (by decide)

/-- C7: boundary results of bound selection at word width 32: `D = 0, 1, 2,
3, 5, 2^31 - 1, 2^32 - 1` select `U = 0, 1, 2, 3, 6, 2^31, 2^32 - 1`. -/
theorem c7_boundary_values_width32 :
    get_upper_bound 32 0 = some 0 ∧ get_upper_bound 32 1 = some 1 ∧
    get_upper_bound 32 2 = some 2 ∧ get_upper_bound 32 3 = some 3 ∧
    get_upper_bound 32 5 = some 6 ∧
    get_upper_bound 32 (2 ^ 31 - 1) = some (2 ^ 31) ∧
    get_upper_bound 32 (2 ^ 32 - 1) = some (2 ^ 32 - 1) := by
  refine ⟨?_, ?_, ?_, ?_, ?_, ?_, ?_⟩ <;> decide

set_option maxRecDepth 4000 in
/-- C8: the width-32 sequence with its final maximum entry removed is an
initial segment of the width-64 sequence, and every width-64 entry past that
shared segment exceeds `2^31`. -/
theorem c8_width64_extends_width32 :
    (forEachSize 32).dropLast = (forEachSize 64).take 64 ∧
    ∀ x ∈ (forEachSize 64).drop 64, 2 ^ 31 < x := by
  exact ⟨by decide, by decide⟩

/-- C9: `desired_generic` returns `A::DESIRED_GENERIC` unchanged, through the
promoted `DESIRED_REF` indirection. -/
theorem c9_desired_identity (d : Nat) : desired_generic d = d := rfl

theorem c9_witness : desired_generic 42 = 42 := c9_desired_identity 42

/-- C10: for `W ≥ 3` the table entries are pairwise distinct because the
maximum `2^W - 1` strictly exceeds the largest regular entry `3 · 2^(W-2)`,
so exactly one entry equals the selected bound; for `W = 1` and `W = 2` the
emitted maximum duplicates an earlier entry, yet `EVAL` still realizes only
the first matching branch. -/
theorem c10_unique_branch :
    (∀ W, 3 ≤ W → (forEachSize W).Nodup ∧ 3 * 2 ^ (W - 2) < 2 ^ W - 1 ∧
      ∀ D U, D < 2 ^ W → ACTUAL W D = some U → (forEachSize W).count U = 1) ∧
    (∀ W, W = 1 ∨ W = 2 → ¬ (forEachSize W).Nodup ∧
      ∀ D U, D < 2 ^ W → ACTUAL W D = some U →
        ∀ (α : Type) (ev : Nat → α), EVAL W D ev = some (ev U)) := by
  constructor
  · intro W h3
    have hlt := (forEachSize_chain_all W (by omega)).2 h3
    have hnd : (forEachSize W).Nodup :=
      (List.chain'_iff_pairwise.mp hlt).imp fun hab => Nat.ne_of_lt hab
    refine ⟨hnd, ?_, ?_⟩
    · have e : 2 ^ (W - 2 + 2) = 2 ^ W := by rw [Nat.sub_add_cancel (by omega)]
      have h4 : 2 ^ W = 4 * 2 ^ (W - 2) := by rw [← e, pow_add]; ring
      have hx2 : 2 ≤ 2 ^ (W - 2) := by
        calc 2 = 2 ^ 1 := by norm_num
        _ ≤ 2 ^ (W - 2) := Nat.pow_le_pow_right (by omega) (by omega)
      omega
    · intro D U hD hU
      exact List.count_eq_one_of_mem hnd (ACTUAL_mem hU)
  · intro W h12
    constructor
    · rcases h12 with h | h <;> subst h
      · exact by decide
      · exact by decide
    · intro D U hD hU α ev
      unfold EVAL
      rw [show ACTUAL W D = some U from hU]
      show ((forEachSize W).find? fun n => n == U).map ev = some (ev U)
      rw [find?_eq_self (ACTUAL_mem hU)]
      rfl

theorem c10_witness : (forEachSize 3).Nodup ∧ ¬ (forEachSize 1).Nodup :=
  ⟨(c10_unique_branch.1 3 (by decide)).1, (c10_unique_branch.2 1 (Or.inl rfl)).1⟩
